import Mathlib

/-!
# Channel arithmetic of HarDNet blocks, formalised

Shallow embedding of `hardnet.py`.  The channel/topology computations of
`HarDBlock.get_link`, `HarDBlock.__init__`, `HarDBlock.forward` and
`HarDNet.__init__` are translated into executable Lean definitions:

* Python ints become `ℤ` (layer indices, which are non-negative, become `ℕ`);
* the float `grmul` accumulator becomes `ℚ` with exact arithmetic
  (Python `int(.)` truncation is `pyInt`, and `int(x)/2` is exact division
  in `ℚ` followed by truncation, matching Python 3 float division on the
  small values involved);
* a tensor is modelled by its channel width: `torch.cat` along the channel
  axis adds widths, and applying a conv layer with widths `(cin, cout)` to a
  tensor of width `w` produces a tensor of width `cout` when `w = cin` and
  a runtime error (`none`) otherwise.  Both `conv_layer` and
  `comb_conv_layer` (the `dwconv` variant) map `in_channels` to
  `out_channels`, so channel accounting is independent of the `dwconv`
  flag, which is therefore dropped from the width model; the unused
  `residual_out` flag is dropped for the same reason.
-/

/-- Python `int(q)`: truncation toward zero. -/
def pyInt (q : ℚ) : ℤ := if 0 ≤ q then ⌊q⌋ else ⌈q⌉

/-- One iteration of the `for i in range(10)` loop in `HarDBlock.get_link`:
if `layer % 2**i == 0` the index `layer - 2**i` is appended to the link list
and, when `i > 0`, the running output-width accumulator is multiplied by
`grmul`. -/
def linkStep (layer : ℕ) (grmul : ℚ) (p : ℚ × List ℕ) (i : ℕ) : ℚ × List ℕ :=
  if layer % 2 ^ i = 0 then
    ((if 0 < i then p.1 * grmul else p.1), p.2 ++ [layer - 2 ^ i])
  else p

/-- The scan over scale exponents `i = 0, …, 9` in `HarDBlock.get_link`,
started from accumulator `growth_rate` and an empty link list. -/
def linkScan (layer : ℕ) (growth_rate : ℤ) (grmul : ℚ) : ℚ × List ℕ :=
  (List.range 10).foldl (linkStep layer grmul) ((growth_rate : ℚ), [])

/-- Closed form of the link list produced by the scan. -/
def link_of (layer : ℕ) : List ℕ :=
  (List.range 10).filterMap
    (fun i => if layer % 2 ^ i = 0 then some (layer - 2 ^ i) else none)

/-- Number of scale exponents `i > 0` (up to 9) with `2^i` dividing `layer`. -/
def scale_count (layer : ℕ) : ℕ :=
  (List.range 10).countP (fun i => decide (0 < i ∧ layer % 2 ^ i = 0))

/-- The raw (pre-rounding) accumulated output width of a layer:
`growth_rate` multiplied by `grmul` once per scale exponent `i > 0`
with `2^i` dividing `layer`. -/
def raw_width (growth_rate : ℤ) (grmul : ℚ) (layer : ℕ) : ℚ :=
  (growth_rate : ℚ) * grmul ^ scale_count layer

theorem linkScan_go (L : ℕ) (gm : ℚ) (l : List ℕ) (q : ℚ) (acc : List ℕ) :
    l.foldl (linkStep L gm) (q, acc)
      = (q * gm ^ l.countP (fun i => decide (0 < i ∧ L % 2 ^ i = 0)),
         acc ++ l.filterMap
           (fun i => if L % 2 ^ i = 0 then some (L - 2 ^ i) else none)) := by
  induction l generalizing q acc with
  | nil => simp
  | cons i t ih =>
    rw [List.foldl_cons]
    by_cases h : L % 2 ^ i = 0
    · by_cases hi : 0 < i
      · have hstep : linkStep L gm (q, acc) i = (q * gm, acc ++ [L - 2 ^ i]) := by
          simp [linkStep, h, hi]
        have hc : (i :: t).countP (fun j => decide (0 < j ∧ L % 2 ^ j = 0))
            = t.countP (fun j => decide (0 < j ∧ L % 2 ^ j = 0)) + 1 := by
          simp [List.countP_cons, h, hi]
        rw [hstep, ih, hc, List.filterMap_cons]
        refine Prod.ext ?_ ?_
        · simp only [pow_succ]
          ring
        · simp [h]
      · have hstep : linkStep L gm (q, acc) i = (q, acc ++ [L - 2 ^ i]) := by
          simp [linkStep, h, hi]
        have hc : (i :: t).countP (fun j => decide (0 < j ∧ L % 2 ^ j = 0))
            = t.countP (fun j => decide (0 < j ∧ L % 2 ^ j = 0)) := by
          simp [List.countP_cons, hi]
        rw [hstep, ih, hc, List.filterMap_cons]
        refine Prod.ext rfl ?_
        simp [h]
    · have hstep : linkStep L gm (q, acc) i = (q, acc) := by
        simp [linkStep, h]
      have hc : (i :: t).countP (fun j => decide (0 < j ∧ L % 2 ^ j = 0))
          = t.countP (fun j => decide (0 < j ∧ L % 2 ^ j = 0)) := by
        simp [List.countP_cons, h]
      rw [hstep, ih, hc, List.filterMap_cons]
      refine Prod.ext rfl ?_
      simp [h]

theorem linkScan_eq (L : ℕ) (g : ℤ) (gm : ℚ) :
    linkScan L g gm = (raw_width g gm L, link_of L) := by
  unfold linkScan raw_width link_of scale_count
  rw [linkScan_go]
  simp

theorem mem_link_of (L k : ℕ) (hk : k ∈ link_of L) :
    ∃ i, i < 10 ∧ L % 2 ^ i = 0 ∧ k = L - 2 ^ i := by
  unfold link_of at hk
  rcases List.mem_filterMap.1 hk with ⟨i, hi, hfi⟩
  by_cases h : L % 2 ^ i = 0
  · exact ⟨i, List.mem_range.1 hi, h, by simpa [h] using hfi.symm⟩
  · simp [h] at hfi

theorem mem_link_of_lt (L k : ℕ) (hL : L ≠ 0) (hk : k ∈ link_of L) : k < L := by
  rcases mem_link_of L k hk with ⟨i, -, hdvd, hk⟩
  have hle : 2 ^ i ≤ L :=
    Nat.le_of_dvd (Nat.pos_of_ne_zero hL) (Nat.dvd_of_mod_eq_zero hdvd)
  have hpos : 0 < 2 ^ i := Nat.pos_pow_of_pos i (by omega)
  omega

/-- `HarDBlock.get_link(layer, base_ch, growth_rate, grmul)`:
returns `(out_channels, in_channels, link)`.  Layer 0 is the block input
with width `base_ch`, no links.  Otherwise the scale scan builds the link
list and the raw width, the raw width is rounded by
`int(int(out_channels + 1) / 2) * 2`, and `in_channels` sums the first
component of the recursive calls on the linked indices. -/
def get_link (layer : ℕ) (base_ch growth_rate : ℤ) (grmul : ℚ) :
    ℤ × ℤ × List ℕ :=
  if h : layer = 0 then (base_ch, 0, [])
  else
    let s := linkScan layer growth_rate grmul
    let out_channels : ℤ := pyInt ((pyInt (s.1 + 1) : ℚ) / 2) * 2
    let in_channels : ℤ :=
      (s.2.attach.map (fun k => (get_link k.1 base_ch growth_rate grmul).1)).sum
    (out_channels, in_channels, s.2)
termination_by layer
decreasing_by
  have hk : k.1 ∈ (linkScan layer growth_rate grmul).2 := k.2
  rw [linkScan_eq] at hk
  exact mem_link_of_lt layer k.1 h hk

/-- Rounded output width of a non-zero layer (closed form). -/
def out_ch_val (growth_rate : ℤ) (grmul : ℚ) (layer : ℕ) : ℤ :=
  pyInt ((pyInt (raw_width growth_rate grmul layer + 1) : ℚ) / 2) * 2

/-- First component of `get_link`: `base_ch` at layer 0, otherwise the
rounded output width. -/
def ch0_val (base_ch growth_rate : ℤ) (grmul : ℚ) (layer : ℕ) : ℤ :=
  if layer = 0 then base_ch else out_ch_val growth_rate grmul layer

/-- Input width of a non-zero layer: sum of the widths of its links. -/
def in_ch_val (base_ch growth_rate : ℤ) (grmul : ℚ) (layer : ℕ) : ℤ :=
  ((link_of layer).map (ch0_val base_ch growth_rate grmul)).sum

/-- Construction-time output-selection test of `HarDBlock.__init__`
(0-based loop index `i`, i.e. layer `i + 1`):
`(i % 2 == 0) or (i == n_layers - 1)`. -/
def sel_ctor (n_layers i : ℕ) : Bool :=
  decide (i % 2 = 0) || decide (i = n_layers - 1)

/-- Runtime output-selection test of `HarDBlock.forward` over indices
`0 .. t-1` of the produced-tensor list (`t = n_layers + 1`):
`(i == 0 and keepBase) or (i == t-1) or (i % 2 == 1)`. -/
def sel_runtime (keepBase : Bool) (t i : ℕ) : Bool :=
  (decide (i = 0) && keepBase) || decide (i = t - 1) || decide (i % 2 = 1)

/-- A `HarDBlock` as built by `HarDBlock.__init__`: the per-layer link
lists, the per-layer conv widths `(in_channels, out_channels)`, the
`keepBase` flag, and the declared `self.out_channels` total. -/
structure Block where
  keepBase : Bool
  links : List (List ℕ)
  layers : List (ℤ × ℤ)
  out_channels : ℤ
  deriving DecidableEq

/-- One iteration of the `for i in range(n_layers)` loop of
`HarDBlock.__init__`: resolve layer `i + 1`, append its link list and a
conv transform sized `(inch, outch)`, and add `outch` to the declared
output total when `sel_ctor` holds. -/
def init_step (in_channels growth_rate : ℤ) (grmul : ℚ) (n_layers : ℕ)
    (st : List (List ℕ) × List (ℤ × ℤ) × ℤ) (i : ℕ) :
    List (List ℕ) × List (ℤ × ℤ) × ℤ :=
  let r := get_link (i + 1) in_channels growth_rate grmul
  (st.1 ++ [r.2.2], st.2.1 ++ [(r.2.1, r.1)],
    if sel_ctor n_layers i then st.2.2 + r.1 else st.2.2)

/-- `HarDBlock.__init__(in_channels, growth_rate, grmul, n_layers, keepBase)`.
(Both conv flavors selected by `dwconv` map `inch` to `outch` channels;
`residual_out` has no effect; so neither flag affects the width model.) -/
def HarDBlock.init (in_channels growth_rate : ℤ) (grmul : ℚ) (n_layers : ℕ)
    (keepBase : Bool) : Block :=
  let st := (List.range n_layers).foldl
    (init_step in_channels growth_rate grmul n_layers) ([], [], 0)
  { keepBase := keepBase, links := st.1, layers := st.2.1,
    out_channels := st.2.2 }

/-- One iteration of the layer loop of `HarDBlock.forward`, on channel
widths.  From the list `ls` of already-produced widths, gather the widths
at the layer's link indices (`none` on an out-of-range index, as Python
raises), concatenate them when more than one (`torch.cat` adds widths,
`tin[0]` raises on an empty gather), and apply the layer's conv, which
yields its `out_channels` width when the gathered width matches its
`in_channels` and a runtime error otherwise. -/
def fwd_step (bl : Block) (acc : Option (List ℤ)) (layer : ℕ) :
    Option (List ℤ) :=
  acc.bind fun ls =>
    ((bl.links.getD layer []).mapM (fun i => ls[i]?)).bind fun tin =>
      (if 1 < tin.length then some tin.sum else tin[0]?).bind fun xw =>
        if xw = (bl.layers.getD layer (0, 0)).1 then
          some (ls ++ [(bl.layers.getD layer (0, 0)).2])
        else none

/-- `HarDBlock.forward(x)` on channel widths: run the layer loop seeded
with the input width, then concatenate the outputs selected by
`sel_runtime` (`torch.cat` on an empty selection raises). -/
def Block.forward (bl : Block) (x : ℤ) : Option ℤ :=
  ((List.range bl.layers.length).foldl (fwd_step bl) (some [x])).bind fun ls =>
    let t := ls.length
    let out_ := (List.range t).filterMap
      (fun i => if sel_runtime bl.keepBase t i then ls[i]? else none)
    if out_ = [] then none else some out_.sum

/-- The declared output-channel total as the spec describes it (for
comparison with the code's `Block.out_channels`): sum of the widths of the
mask-selected indices `0 .. n_layers`, index 0 counting `base_channels`
when selected by `keep_base`. -/
def spec_declared_total (b g : ℤ) (gm : ℚ) (N : ℕ) (kb : Bool) : ℤ :=
  (((List.range (N + 1)).filter (sel_runtime kb (N + 1))).map
    (ch0_val b g gm)).sum

/-- One stage of the network's `self.base` list. -/
inductive Stage where
  | conv (in_ch out_ch kernel stride : ℤ)
  | maxPool (kernel stride : ℤ)
  | dwConv (in_ch out_ch stride : ℤ)
  | block (b : Block)
  | dropout (p : ℚ)
  | classifier (in_ch : ℤ) (drop_rate : ℚ)
  deriving DecidableEq

/-- The built network: the ordered `self.base` stage list. -/
structure Net where
  base : List Stage
  deriving DecidableEq

/-- The ways `HarDNet.__init__` can fail. -/
inductive BuildError where
  /-- `raise ValueError("Architecture type %s is not supported" % arch)`. -/
  | unsupportedArch (arch : ℕ)
  /-- Python `UnboundLocalError`: the arch-39 branch assigns no
  `drop_rate`, which `nn.Dropout(drop_rate)` then reads while the
  classification head is built. -/
  | unboundDropRate
  /-- Python `KeyError`: `checkpoint_urls[arch_codename]` with a codename
  absent from the table. -/
  | missingKey (codename : String)
  /-- `raise FileNotFoundError(...)` for a missing local weight file. -/
  | fileNotFound (codename : String)
  deriving DecidableEq

/-- A named architecture profile of `HarDNet.__init__`.  `drop_rate` is
`none` when the branch leaves the Python local unassigned (arch 39). -/
structure Config where
  first_ch : List ℤ
  ch_list : List ℤ
  grmul : ℚ
  gr : List ℤ
  n_layers : List ℕ
  downSamp : List ℕ
  drop_rate : Option ℚ
  deriving DecidableEq

/-- The `if arch == 68 / 85 / 39 / else raise ValueError` dispatch. -/
def archConfig (arch : ℕ) : Option Config :=
  if arch = 68 then
    some { first_ch := [32, 64], ch_list := [128, 256, 320, 640, 1024],
           grmul := 17/10, gr := [14, 16, 20, 40, 160],
           n_layers := [8, 16, 16, 16, 4], downSamp := [1, 0, 1, 1, 0],
           drop_rate := some (1/10) }
  else if arch = 85 then
    some { first_ch := [48, 96], ch_list := [192, 256, 320, 480, 720, 1280],
           grmul := 17/10, gr := [24, 24, 28, 36, 48, 256],
           n_layers := [8, 16, 16, 16, 16, 4], downSamp := [1, 0, 1, 0, 1, 0],
           drop_rate := some (1/5) }
  else if arch = 39 then
    some { first_ch := [24, 48], ch_list := [96, 320, 640, 1024],
           grmul := 8/5, gr := [16, 20, 64, 160],
           n_layers := [4, 16, 8, 4], downSamp := [1, 1, 1, 0],
           drop_rate := none }
  else none

/-- The `checkpoint_urls` table (note the underscore in the 39-DS key). -/
def checkpoint_urls : List (String × String) :=
  [("HarDNet39_DS", "https://ping-chao.com/hardnet/hardnet39ds-0e6c6fa9.pth"),
   ("HarDNet68", "https://ping-chao.com/hardnet/hardnet68-5d684880.pth"),
   ("HarDNet68DS", "https://ping-chao.com/hardnet/hardnet68ds-632474d2.pth"),
   ("HarDNet85", "https://ping-chao.com/hardnet/hardnet85-a28faa00.pth")]

/-- `arch_codename = "HarDNet%d" % arch`, plus `"DS"` when `depth_wise`. -/
def arch_codename (arch : ℕ) (depth_wise : Bool) : String :=
  "HarDNet" ++ toString arch ++ (if depth_wise then "DS" else "")

/-- The per-stage loop body of `HarDNet.__init__`: build a `HarDBlock`
on the running channel count, append it (plus the arch-85 dropout before
the last 1x1 conv), append the 1x1 projection conv to `ch_list[i]`, and
append a downsampler when `downSamp[i] == 1`. -/
def net_stage_step (cfg : Config) (arch : ℕ) (depth_wise : Bool)
    (p : ℤ × List Stage) (i : ℕ) : ℤ × List Stage :=
  let blks := cfg.n_layers.length
  let blk := HarDBlock.init p.1 (cfg.gr.getD i 0) cfg.grmul
    (cfg.n_layers.getD i 0) false
  let ch := blk.out_channels
  let s1 := p.2 ++ [Stage.block blk]
    ++ (if i = blks - 1 ∧ arch = 85 then [Stage.dropout (1/10)] else [])
  let chl := cfg.ch_list.getD i 0
  let s2 := s1 ++ [Stage.conv ch chl 1 1]
  let s3 := s2 ++ (if cfg.downSamp.getD i 0 = 1 then
      (if depth_wise then [Stage.dwConv chl chl 2] else [Stage.maxPool 2 2])
    else [])
  (chl, s3)

/-- `HarDNet.__init__(depth_wise, arch, pretrained, weight_path)`.
The environment is abstracted by two booleans: `hub_available` models
`hasattr(torch, 'hub')` and `local_file_exists` models
`os.path.isfile(weight_file)`.  Weight loading itself is external I/O and
is not modelled beyond its failure modes. -/
def HarDNet.init (depth_wise : Bool) (arch : ℕ) (pretrained : Bool)
    (hub_available local_file_exists : Bool) : Except BuildError Net :=
  match archConfig arch with
  | none => .error (.unsupportedArch arch)
  | some cfg =>
    let second_kernel : ℤ := if depth_wise then 1 else 3
    let drop_rate : Option ℚ :=
      if depth_wise then some (1/20) else cfg.drop_rate
    let first0 := cfg.first_ch.getD 0 0
    let first1 := cfg.first_ch.getD 1 0
    let stem : List Stage :=
      [Stage.conv 3 first0 3 2, Stage.conv first0 first1 second_kernel 1]
      ++ (if depth_wise then [Stage.dwConv first1 first1 2]
          else [Stage.maxPool 3 2])
    let st := (List.range cfg.n_layers.length).foldl
      (net_stage_step cfg arch depth_wise) (first1, stem)
    match drop_rate with
    | none => .error .unboundDropRate
    | some dr =>
      let net : Net :=
        { base := st.2
            ++ [Stage.classifier (cfg.ch_list.getD (cfg.n_layers.length - 1) 0) dr] }
      if pretrained then
        let codename := arch_codename arch depth_wise
        if hub_available then
          match checkpoint_urls.lookup codename with
          | none => .error (.missingKey codename)
          | some _ => .ok net
        else
          if local_file_exists then .ok net
          else .error (.fileNotFound codename)
      else .ok net

theorem get_link_fst (layer : ℕ) (b g : ℤ) (gm : ℚ) :
    (get_link layer b g gm).1 = ch0_val b g gm layer := by
  rw [get_link.eq_def]
  by_cases h : layer = 0 <;>
    simp [h, ch0_val, out_ch_val, linkScan_eq]

theorem get_link_spec (layer : ℕ) (b g : ℤ) (gm : ℚ) :
    get_link layer b g gm
      = (ch0_val b g gm layer,
         (if layer = 0 then 0 else in_ch_val b g gm layer),
         (if layer = 0 then [] else link_of layer)) := by
  rw [get_link.eq_def]
  by_cases h : layer = 0
  · simp [h, ch0_val]
  · simp only [h, dif_neg, if_neg, not_false_iff, linkScan_eq]
    refine Prod.ext ?_ (Prod.ext ?_ ?_)
    · simp [ch0_val, out_ch_val, h, linkScan_eq]
    · simp only [get_link_fst, in_ch_val]
      rw [List.attach_map_val]
      simp [linkScan_eq]
    · simp [linkScan_eq]

theorem init_step_eq (b g : ℤ) (gm : ℚ) (N i : ℕ)
    (a : List (List ℕ)) (bl : List (ℤ × ℤ)) (c : ℤ) :
    init_step b g gm N (a, bl, c) i
      = (a ++ [link_of (i + 1)],
         bl ++ [(in_ch_val b g gm (i + 1), out_ch_val g gm (i + 1))],
         c + (if sel_ctor N i then out_ch_val g gm (i + 1) else 0)) := by
  unfold init_step
  rw [get_link_spec]
  have h1 : i + 1 ≠ 0 := Nat.succ_ne_zero i
  simp only [h1, if_neg, not_false_iff, ch0_val]
  by_cases hsel : sel_ctor N i = true <;> simp [hsel]

theorem init_go (b g : ℤ) (gm : ℚ) (N : ℕ) (l : List ℕ)
    (a : List (List ℕ)) (bl : List (ℤ × ℤ)) (c : ℤ) :
    l.foldl (init_step b g gm N) (a, bl, c)
      = (a ++ l.map (fun i => link_of (i + 1)),
         bl ++ l.map (fun i => (in_ch_val b g gm (i + 1), out_ch_val g gm (i + 1))),
         c + (l.map (fun i =>
           if sel_ctor N i then out_ch_val g gm (i + 1) else 0)).sum) := by
  induction l generalizing a bl c with
  | nil => simp
  | cons i t ih =>
    rw [List.foldl_cons, init_step_eq, ih]
    refine Prod.ext (by simp) (Prod.ext (by simp) ?_)
    simp only [List.map_cons, List.sum_cons]
    ring

theorem init_spec (b g : ℤ) (gm : ℚ) (N : ℕ) (kb : Bool) :
    HarDBlock.init b g gm N kb
      = { keepBase := kb,
          links := (List.range N).map (fun i => link_of (i + 1)),
          layers := (List.range N).map
            (fun i => (in_ch_val b g gm (i + 1), out_ch_val g gm (i + 1))),
          out_channels := ((List.range N).map (fun i =>
            if sel_ctor N i then out_ch_val g gm (i + 1) else 0)).sum } := by
  unfold HarDBlock.init
  rw [init_go]
  simp

theorem mapM_somes {α β : Type} (l : List α) (f : α → Option β) (g : α → β)
    (h : ∀ a ∈ l, f a = some (g a)) : l.mapM f = some (l.map g) := by
  induction l with
  | nil => rfl
  | cons a t ih =>
    rw [List.mapM_cons]
    rw [h a (List.mem_cons_self a t), ih (fun a ha => h a (List.mem_cons_of_mem _ ha))]
    rfl

theorem widths_getElem (x g : ℤ) (gm : ℚ) (m i : ℕ) (hi : i < m + 1) :
    (x :: (List.range m).map (fun j => out_ch_val g gm (j + 1)))[i]?
      = some (ch0_val x g gm i) := by
  cases i with
  | zero => simp [ch0_val]
  | succ j =>
    have hj : j < m := by omega
    simp [List.getElem?_map, List.getElem?_range hj, ch0_val]

theorem link_of_ne_nil (L : ℕ) : link_of L ≠ [] := by
  have hmem : L - 1 ∈ link_of L := by
    unfold link_of
    refine List.mem_filterMap.2 ⟨0, by simp, ?_⟩
    simp [Nat.mod_one]
  exact List.ne_nil_of_mem hmem

theorem gather_sum {tin : List ℤ} (h : tin ≠ []) :
    (if 1 < tin.length then some tin.sum else tin[0]?) = some tin.sum := by
  match tin with
  | [] => exact absurd rfl h
  | [a] => simp
  | a :: b :: t => simp [Nat.succ_lt_succ]

theorem map_range_getD {α : Type} (N n : ℕ) (f : ℕ → α) (d : α) (h : n < N) :
    ((List.range N).map f).getD n d = f n := by
  simp [List.getD_eq_getElem?_getD, List.getElem?_map, List.getElem?_range h]

theorem fwd_step_init (b g : ℤ) (gm : ℚ) (N : ℕ) (kb : Bool) (n : ℕ)
    (hn : n < N) :
    fwd_step (HarDBlock.init b g gm N kb)
      (some (b :: (List.range n).map (fun j => out_ch_val g gm (j + 1)))) n
      = some (b :: (List.range (n + 1)).map (fun j => out_ch_val g gm (j + 1))) := by
  have hlinks : (HarDBlock.init b g gm N kb).links.getD n [] = link_of (n + 1) := by
    rw [init_spec]
    exact map_range_getD N n _ [] hn
  have hlayers : (HarDBlock.init b g gm N kb).layers.getD n (0, 0)
      = (in_ch_val b g gm (n + 1), out_ch_val g gm (n + 1)) := by
    rw [init_spec]
    exact map_range_getD N n _ (0, 0) hn
  have hmapM : (link_of (n + 1)).mapM
      (fun i => (b :: (List.range n).map (fun j => out_ch_val g gm (j + 1)))[i]?)
      = some ((link_of (n + 1)).map (ch0_val b g gm)) := by
    apply mapM_somes
    intro a ha
    have ha' : a < n + 1 := mem_link_of_lt (n + 1) a (Nat.succ_ne_zero n) ha
    exact widths_getElem b g gm n a ha'
  have htin : (link_of (n + 1)).map (ch0_val b g gm) ≠ [] := by
    intro hcon
    exact link_of_ne_nil (n + 1) (List.map_eq_nil_iff.1 hcon)
  unfold fwd_step
  rw [Option.bind, hlinks, hmapM, Option.bind, gather_sum htin, Option.bind,
    hlayers]
  have hsum : ((link_of (n + 1)).map (ch0_val b g gm)).sum
      = in_ch_val b g gm (n + 1) := rfl
  rw [hsum, if_pos rfl]
  rw [List.range_succ, List.map_append]
  simp

theorem fwd_go (b g : ℤ) (gm : ℚ) (N : ℕ) (kb : Bool) (m : ℕ) (hm : m ≤ N) :
    (List.range m).foldl (fwd_step (HarDBlock.init b g gm N kb)) (some [b])
      = some (b :: (List.range m).map (fun j => out_ch_val g gm (j + 1))) := by
  induction m with
  | zero => simp
  | succ n ih =>
    rw [List.range_succ, List.foldl_append, ih (by omega), List.foldl_cons,
      List.foldl_nil, fwd_step_init b g gm N kb n (by omega), List.range_succ]

theorem filterMap_if_some {α : Type} (l : List ℕ) (p : ℕ → Bool)
    (F : ℕ → Option α) (f : ℕ → α) (h : ∀ a ∈ l, F a = some (f a)) :
    l.filterMap (fun i => if p i then F i else none) = (l.filter p).map f := by
  induction l with
  | nil => simp
  | cons a t ih =>
    rw [List.filterMap_cons, List.filter_cons]
    by_cases hp : p a
    · rw [if_pos hp, if_pos hp, h a (List.mem_cons_self a t), List.map_cons,
        ih (fun a ha => h a (List.mem_cons_of_mem _ ha))]
    · rw [if_neg hp, if_neg hp, ih (fun a ha => h a (List.mem_cons_of_mem _ ha))]

theorem sum_filter_map (l : List ℕ) (p : ℕ → Bool) (f : ℕ → ℤ) :
    ((l.filter p).map f).sum = (l.map (fun a => if p a then f a else 0)).sum := by
  induction l with
  | nil => simp
  | cons a t ih =>
    rw [List.filter_cons, List.map_cons, List.sum_cons]
    by_cases hp : p a
    · rw [if_pos hp, List.map_cons, List.sum_cons, ih, if_pos hp]
    · rw [if_neg hp, ih, if_neg hp, zero_add]

theorem sel_runtime_zero (kb : Bool) (N : ℕ) (hN : 1 ≤ N) :
    sel_runtime kb (N + 1) 0 = kb := by
  unfold sel_runtime
  have h1 : decide ((0 : ℕ) = 0) = true := by simp
  have h2 : decide ((0 : ℕ) = N + 1 - 1) = false := by
    simp only [decide_eq_false_iff_not]
    omega
  have h3 : decide ((0 : ℕ) % 2 = 1) = false := by simp
  rw [h1, h2, h3]
  cases kb <;> rfl

theorem sel_runtime_last (kb : Bool) (N : ℕ) :
    sel_runtime kb (N + 1) N = true := by
  unfold sel_runtime
  have h2 : decide (N = N + 1 - 1) = true := by simp
  rw [h2]
  simp

theorem sel_shift (kb : Bool) (N j : ℕ) (hj : j < N) :
    sel_runtime kb (N + 1) (j + 1) = sel_ctor N j := by
  unfold sel_runtime sel_ctor
  have h0 : decide (j + 1 = 0) = false := by simp
  have h1 : decide (j + 1 = N + 1 - 1) = decide (j = N - 1) :=
    decide_eq_decide.2 (by omega)
  have h2 : decide ((j + 1) % 2 = 1) = decide (j % 2 = 0) :=
    decide_eq_decide.2 (by omega)
  rw [h0, h1, h2, Bool.false_and, Bool.false_or, Bool.or_comm]

theorem mask_sum_split (b g : ℤ) (gm : ℚ) (N : ℕ) (kb : Bool) (hN : 1 ≤ N) :
    (((List.range (N + 1)).filter (sel_runtime kb (N + 1))).map
        (ch0_val b g gm)).sum
      = (if kb then b else 0) + ((List.range N).map (fun i =>
          if sel_ctor N i then out_ch_val g gm (i + 1) else 0)).sum := by
  rw [sum_filter_map, List.range_succ_eq_map, List.map_cons, List.sum_cons,
    List.map_map]
  congr 1
  · rw [sel_runtime_zero kb N hN]
    cases kb <;> simp [ch0_val]
  · apply congrArg List.sum
    apply List.map_congr_left
    intro j hj
    have hj' : j < N := List.mem_range.1 hj
    simp only [Function.comp_apply, Nat.succ_eq_add_one,
      sel_shift kb N j hj']
    by_cases hsel : sel_ctor N j = true <;> simp [hsel, ch0_val]

theorem block_forward_base (b g : ℤ) (gm : ℚ) (N : ℕ) (kb : Bool)
    (hN : 1 ≤ N) :
    (HarDBlock.init b g gm N kb).forward b
      = some ((if kb then b else 0)
          + (HarDBlock.init b g gm N kb).out_channels) := by
  have hlen : (HarDBlock.init b g gm N kb).layers.length = N := by
    rw [init_spec]
    simp
  have hkb : (HarDBlock.init b g gm N kb).keepBase = kb := by
    rw [init_spec]
  have hlen2 : (b :: (List.range N).map (fun j => out_ch_val g gm (j + 1))).length
      = N + 1 := by
    simp
  have hfm : (List.range (N + 1)).filterMap
        (fun i => if sel_runtime kb (N + 1) i then
          (b :: (List.range N).map (fun j => out_ch_val g gm (j + 1)))[i]?
          else none)
      = ((List.range (N + 1)).filter (sel_runtime kb (N + 1))).map
          (ch0_val b g gm) := by
    apply filterMap_if_some
    intro a ha
    exact widths_getElem b g gm N a (List.mem_range.1 ha)
  have hne : ((List.range (N + 1)).filter (sel_runtime kb (N + 1))).map
      (ch0_val b g gm) ≠ [] := by
    have hNmem : N ∈ (List.range (N + 1)).filter (sel_runtime kb (N + 1)) := by
      rw [List.mem_filter]
      exact ⟨List.mem_range.2 (by omega), sel_runtime_last kb N⟩
    exact List.ne_nil_of_mem (List.mem_map_of_mem (ch0_val b g gm) hNmem)
  have hsum := mask_sum_split b g gm N kb hN
  unfold Block.forward
  rw [hlen, hkb, fwd_go b g gm N kb N le_rfl, Option.bind]
  simp only [hlen2, hfm, hsum, if_neg hne]
  rw [init_spec]

theorem floor_half (x : ℚ) : ⌊x / 2⌋ = ⌊x⌋ / 2 := by
  have h1 : ((⌊x⌋ : ℚ)) ≤ x := Int.floor_le x
  have h2 : x < (⌊x⌋ : ℚ) + 1 := Int.lt_floor_add_one x
  have h3 : 2 * (⌊x⌋ / 2) ≤ ⌊x⌋ := by omega
  have h4 : ⌊x⌋ ≤ 2 * (⌊x⌋ / 2) + 1 := by omega
  refine Int.floor_eq_iff.2 ⟨?_, ?_⟩
  · have : ((2 * (⌊x⌋ / 2) : ℤ) : ℚ) ≤ (⌊x⌋ : ℚ) := by exact_mod_cast h3
    push_cast at this ⊢
    linarith
  · have : ((⌊x⌋ : ℤ) : ℚ) ≤ ((2 * (⌊x⌋ / 2) + 1 : ℤ) : ℚ) := by exact_mod_cast h4
    push_cast at this ⊢
    linarith

theorem floor_intCast_half (m : ℤ) : ⌊((m : ℚ)) / 2⌋ = m / 2 := by
  rw [floor_half, Int.floor_intCast]

theorem raw_width_nonneg (g : ℤ) (gm : ℚ) (L : ℕ) (hg : 0 ≤ g) (hgm : 0 ≤ gm) :
    0 ≤ raw_width g gm L :=
  mul_nonneg (by exact_mod_cast hg) (pow_nonneg hgm _)

/-- For non-negative configurations, the code's rounding
`int(int(raw + 1) / 2) * 2` agrees with the spec's `floor((raw+1)/2)*2`. -/
theorem out_ch_val_eq (g : ℤ) (gm : ℚ) (L : ℕ) (hg : 0 ≤ g) (hgm : 0 ≤ gm) :
    out_ch_val g gm L = ⌊(raw_width g gm L + 1) / 2⌋ * 2 := by
  have hr : 0 ≤ raw_width g gm L := raw_width_nonneg g gm L hg hgm
  unfold out_ch_val pyInt
  have h1 : (0 : ℚ) ≤ raw_width g gm L + 1 := by linarith
  rw [if_pos h1]
  have h2 : (0 : ℤ) ≤ ⌊raw_width g gm L + 1⌋ := Int.le_floor.2 (by push_cast; linarith)
  have h3 : (0 : ℚ) ≤ (⌊raw_width g gm L + 1⌋ : ℚ) / 2 := by
    have : (0 : ℚ) ≤ (⌊raw_width g gm L + 1⌋ : ℚ) := by exact_mod_cast h2
    linarith
  rw [if_pos h3, floor_intCast_half, floor_half]

theorem out_ch_val_even (g : ℤ) (gm : ℚ) (L : ℕ) : 2 ∣ out_ch_val g gm L :=
  ⟨pyInt ((pyInt (raw_width g gm L + 1) : ℚ) / 2),
    (mul_comm 2 (pyInt ((pyInt (raw_width g gm L + 1) : ℚ) / 2))).symm⟩

theorem out_ch_val_gt (g : ℤ) (gm : ℚ) (L : ℕ) (hg : 0 ≤ g) (hgm : 0 ≤ gm) :
    raw_width g gm L - 1 < (out_ch_val g gm L : ℚ) := by
  have hr := raw_width_nonneg g gm L hg hgm
  rw [out_ch_val_eq g gm L hg hgm]
  have h1 : ⌊raw_width g gm L + 1⌋ = ⌊raw_width g gm L⌋ + 1 :=
    Int.floor_add_one _
  rw [floor_half, h1]
  have h2 : ⌊raw_width g gm L⌋ ≤ (⌊raw_width g gm L⌋ + 1) / 2 * 2 := by omega
  have h3 : raw_width g gm L - 1 < (⌊raw_width g gm L⌋ : ℚ) :=
    Int.sub_one_lt_floor _
  calc raw_width g gm L - 1 < (⌊raw_width g gm L⌋ : ℚ) := h3
    _ ≤ (((⌊raw_width g gm L⌋ + 1) / 2 * 2 : ℤ) : ℚ) := by exact_mod_cast h2

/-- The link list of a non-zero layer is strictly decreasing: the scan
appends `layer - 2^i` for increasing `i`. -/
theorem link_of_sorted (L : ℕ) (hL : L ≠ 0) :
    (link_of L).Pairwise (fun a c => c < a) := by
  unfold link_of
  rw [List.pairwise_filterMap]
  refine (List.pairwise_lt_range 10).imp ?_
  intro i j hij x hx y hy
  by_cases h1 : L % 2 ^ i = 0
  · by_cases h2 : L % 2 ^ j = 0
    · simp only [h1, h2, if_pos, Option.mem_def, Option.some_inj] at hx hy
      subst hx
      subst hy
      have hle : 2 ^ j ≤ L :=
        Nat.le_of_dvd (Nat.pos_of_ne_zero hL) (Nat.dvd_of_mod_eq_zero h2)
      have hlt : 2 ^ i < 2 ^ j := Nat.pow_lt_pow_of_lt (by omega) hij
      omega
    · simp [h2] at hy
  · simp [h1] at hx

theorem out_ch_val_ten : out_ch_val 10 1 1 = 10 := by
  rw [out_ch_val_eq 10 1 1 (by norm_num) (by norm_num)]
  unfold raw_width
  norm_num

/-- Claim C1, counterexample: for a block built with `keep_base` set
(base 20, growth 10, multiplier 1, one layer), the executor's output on an
input of width 20 has width 30, while the block's declared output-channel
total computed at construction is 10: construction never counts index 0,
so the claimed equality fails. -/
theorem keepBase_output_exceeds_declared :
    (HarDBlock.init 20 10 1 1 true).forward 20 = some 30
      ∧ (HarDBlock.init 20 10 1 1 true).out_channels = 10 := by
  have hoc : (HarDBlock.init 20 10 1 1 true).out_channels = 10 := by
    rw [init_spec]
    show ((List.range 1).map
      (fun i => if sel_ctor 1 i then out_ch_val 10 1 (i + 1) else 0)).sum = 10
    have hr1 : List.range 1 = [0] := rfl
    rw [hr1]
    simp [sel_ctor, out_ch_val_ten]
  refine ⟨?_, hoc⟩
  rw [block_forward_base 20 10 1 1 true (by norm_num), hoc]
  norm_num

/-- Claim C1, amended: for every block and every input of width
`base_channels`, the executor's output width equals the mask-selected
total with index 0 counting `base_channels` when `keep_base` is set
(`spec_declared_total`); that total equals the block's declared
`out_channels` plus `base_channels` when `keep_base` is set, since the
construction-time total never counts index 0.  With `keep_base` unset the
two totals coincide. -/
theorem block_output_width_eq_mask_total (b g : ℤ) (gm : ℚ) (N : ℕ)
    (kb : Bool) (hN : 1 ≤ N) :
    (HarDBlock.init b g gm N kb).forward b
        = some (spec_declared_total b g gm N kb)
      ∧ spec_declared_total b g gm N kb
        = (HarDBlock.init b g gm N kb).out_channels + (if kb then b else 0) := by
  have h3 : (HarDBlock.init b g gm N kb).out_channels
      = ((List.range N).map (fun i =>
          if sel_ctor N i then out_ch_val g gm (i + 1) else 0)).sum := by
    rw [init_spec]
  have h2 : spec_declared_total b g gm N kb
      = (HarDBlock.init b g gm N kb).out_channels + (if kb then b else 0) := by
    unfold spec_declared_total
    rw [mask_sum_split b g gm N kb hN, h3, add_comm]
  refine ⟨?_, h2⟩
  rw [block_forward_base b g gm N kb hN, h2, add_comm]

/-- Witness for the amended C1 theorem at a concrete block. -/
theorem block_output_width_eq_mask_total_witness :
    1 ≤ 2
      ∧ ((HarDBlock.init 20 10 1 2 true).forward 20
          = some (spec_declared_total 20 10 1 2 true)
        ∧ spec_declared_total 20 10 1 2 true
          = (HarDBlock.init 20 10 1 2 true).out_channels
            + (if true then 20 else 0)) :=
  ⟨by norm_num, block_output_width_eq_mask_total 20 10 1 2 true (by norm_num)⟩

/-- Claim C2, counterexample: the link list the resolver returns for
layer 4 is not `[0, 2, 3]` (it is `[3, 2, 0]`: the scan appends
`layer - 2^i` for increasing `i`, so the list descends). -/
theorem link_order_not_ascending : (get_link 4 20 10 1).2.2 ≠ [0, 2, 3] := by
  rw [get_link_spec]
  decide

/-- Claim C2, amended: for every layer `L ≥ 1` and every configuration,
the link list returned by the resolver is in strictly descending order of
layer index; in particular `resolve(4, …)` returns `[3, 2, 0]`. -/
theorem link_list_descending (L : ℕ) (b g : ℤ) (gm : ℚ) (hL : 1 ≤ L) :
    ((get_link L b g gm).2.2).Pairwise (fun a c => c < a)
      ∧ (get_link 4 b g gm).2.2 = [3, 2, 0] := by
  have hL0 : L ≠ 0 := by omega
  constructor
  · rw [get_link_spec]
    simp only [if_neg hL0]
    exact link_of_sorted L hL0
  · rw [get_link_spec]
    show (if (4 : ℕ) = 0 then ([] : List ℕ) else link_of 4) = [3, 2, 0]
    decide

/-- Witness for the amended C2 theorem. -/
theorem link_list_descending_witness :
    1 ≤ 4
      ∧ (((get_link 4 20 10 1).2.2).Pairwise (fun a c => c < a)
        ∧ (get_link 4 20 10 1).2.2 = [3, 2, 0]) :=
  ⟨by norm_num, link_list_descending 4 20 10 1 (by norm_num)⟩

/-- Claim C3, counterexample: with the arch-68 configuration
(growth 14, multiplier 17/10) at layer 4 the raw accumulated width is
`14 * (17/10)^2 = 40.46`, and the resolver returns 40, which is strictly
below the raw value: the returned width is not always `≥ raw`. -/
theorem rounded_width_below_raw :
    ((get_link 4 20 14 (17/10)).1 : ℚ) < raw_width 14 (17/10) 4 := by
  rw [get_link_fst]
  have hs : scale_count 4 = 2 := by decide
  have h : ch0_val 20 14 (17/10) 4 = 40 := by
    unfold ch0_val
    rw [if_neg (by norm_num), out_ch_val_eq 14 (17/10) 4 (by norm_num) (by norm_num)]
    unfold raw_width
    rw [hs]
    norm_num
  rw [h]
  unfold raw_width
  rw [hs]
  norm_num

/-- Claim C3, amended: for every layer `L ≥ 1` and non-negative
configuration, the resolver's returned `out_channels` equals
`floor((raw + 1) / 2) * 2` where `raw` is the accumulated width
(`growth_rate` times `growth_mul` once per scale exponent `i > 0`, up to
9, with `2^i` dividing `L`), and this value is an even integer strictly
greater than `raw - 1` (hence `≥ raw` whenever `raw` is an integer, but
possibly below a fractional `raw`). -/
theorem resolver_rounding_rule (L : ℕ) (b g : ℤ) (gm : ℚ)
    (hL : 1 ≤ L) (hg : 0 ≤ g) (hgm : 0 ≤ gm) :
    (get_link L b g gm).1 = ⌊(raw_width g gm L + 1) / 2⌋ * 2
      ∧ 2 ∣ (get_link L b g gm).1
      ∧ raw_width g gm L - 1 < ((get_link L b g gm).1 : ℚ) := by
  have hL0 : L ≠ 0 := by omega
  rw [get_link_fst]
  unfold ch0_val
  rw [if_neg hL0]
  exact ⟨out_ch_val_eq g gm L hg hgm, out_ch_val_even g gm L,
    out_ch_val_gt g gm L hg hgm⟩

/-- Witness for the amended C3 theorem. -/
theorem resolver_rounding_rule_witness :
    (1 ≤ 4 ∧ (0 : ℤ) ≤ 14 ∧ (0 : ℚ) ≤ 17/10)
      ∧ ((get_link 4 20 14 (17/10)).1 = ⌊(raw_width 14 (17/10) 4 + 1) / 2⌋ * 2
        ∧ 2 ∣ (get_link 4 20 14 (17/10)).1
        ∧ raw_width 14 (17/10) 4 - 1 < ((get_link 4 20 14 (17/10)).1 : ℚ)) :=
  ⟨⟨by norm_num, by norm_num, by norm_num⟩,
    resolver_rounding_rule 4 20 14 (17/10) (by norm_num) (by norm_num)
      (by norm_num)⟩

/-- Claim C4, confirmed: for every block with `n_layers = N ≥ 1`, the
runtime output-selection mask over indices `0 .. N` selects index 0 iff
`keep_base`, always selects `N`, and selects every odd index — and
nothing else; and on indices `1 .. N` the construction-time selection
(0-based index `j`, layer `j + 1`) agrees with the runtime selection. -/
theorem output_mask_rule (kb : Bool) (N : ℕ) (hN : 1 ≤ N) :
    (∀ i, i ≤ N →
      (sel_runtime kb (N + 1) i = true
        ↔ ((i = 0 ∧ kb = true) ∨ i = N ∨ i % 2 = 1)))
      ∧ (∀ j, j < N → sel_ctor N j = sel_runtime kb (N + 1) (j + 1)) := by
  constructor
  · intro i hi
    unfold sel_runtime
    rw [Nat.add_sub_cancel]
    simp only [Bool.or_eq_true, Bool.and_eq_true, decide_eq_true_eq]
    exact or_assoc
  · intro j hj
    exact (sel_shift kb N j hj).symm

/-- Witness for the C4 theorem. -/
theorem output_mask_rule_witness :
    1 ≤ 4
      ∧ ((∀ i, i ≤ 4 →
          (sel_runtime false (4 + 1) i = true
            ↔ ((i = 0 ∧ false = true) ∨ i = 4 ∨ i % 2 = 1)))
        ∧ (∀ j, j < 4 → sel_ctor 4 j = sel_runtime false (4 + 1) (j + 1))) :=
  ⟨by norm_num, output_mask_rule false 4 (by norm_num)⟩

/-- Claim C5, confirmed: every index in the link list returned by the
resolver for a layer `L ≥ 1` is strictly less than `L` (indices are
naturals, hence non-negative). -/
theorem link_indices_bounded (L : ℕ) (b g : ℤ) (gm : ℚ) (hL : 1 ≤ L) :
    ∀ k ∈ (get_link L b g gm).2.2, k < L := by
  intro k hk
  have hL0 : L ≠ 0 := by omega
  rw [get_link_spec] at hk
  simp only [if_neg hL0] at hk
  exact mem_link_of_lt L k hL0 hk

/-- Witness for the C5 theorem. -/
theorem link_indices_bounded_witness :
    1 ≤ 4 ∧ ∀ k ∈ (get_link 4 20 10 1).2.2, k < 4 :=
  ⟨by norm_num, link_indices_bounded 4 20 10 1 (by norm_num)⟩

/-- Claim C6, confirmed: for every layer `L ≥ 1` and every configuration,
the `in_channels` the resolver returns equals the sum, over the indices
`k` of its link list, of the width the resolver returns for `k`
(`base_channels` for `k = 0`). -/
theorem in_width_eq_sum_of_link_widths (L : ℕ) (b g : ℤ) (gm : ℚ)
    (hL : 1 ≤ L) :
    (get_link L b g gm).2.1
      = (((get_link L b g gm).2.2).map (fun k => (get_link k b g gm).1)).sum := by
  have hL0 : L ≠ 0 := by omega
  rw [get_link_spec]
  simp only [if_neg hL0, get_link_fst]
  rfl

/-- Witness for the C6 theorem. -/
theorem in_width_eq_sum_of_link_widths_witness :
    1 ≤ 4
      ∧ (get_link 4 20 10 1).2.1
        = (((get_link 4 20 10 1).2.2).map (fun k => (get_link k 20 10 1).1)).sum :=
  ⟨by norm_num, in_width_eq_sum_of_link_widths 4 20 10 1 (by norm_num)⟩

/-- Claim C7, counterexample: constructing a block with `n_layers = 0`
(the only `n_layers < 1` value on naturals; Python's `range` treats every
`n_layers < 1` identically) raises nothing and produces a degenerate
block with no layers, no links and declared width 0. -/
theorem zero_layer_block_constructs :
    HarDBlock.init 20 10 1 0 false
      = { keepBase := false, links := [], layers := [], out_channels := 0 } :=
  rfl

/-- Claim C7, amended: constructing a block with `n_layers < 1` is not a
construction-time error: `HarDBlock.__init__` runs its layer loop zero
times and returns a block with empty layer and link lists and declared
`out_channels = 0`. -/
theorem zero_layer_block_spec (b g : ℤ) (gm : ℚ) (kb : Bool) :
    HarDBlock.init b g gm 0 kb
      = { keepBase := kb, links := [], layers := [], out_channels := 0 } :=
  rfl

/-- Claim C8, confirmed: building a network with an architecture number
other than 68, 85 or 39 fails with the `ValueError` configuration error
raised by the arch dispatch, before any stage is assembled. -/
theorem unknown_arch_rejected (arch : ℕ) (dw p hub lf : Bool)
    (h68 : arch ≠ 68) (h85 : arch ≠ 85) (h39 : arch ≠ 39) :
    HarDNet.init dw arch p hub lf = .error (.unsupportedArch arch) := by
  unfold HarDNet.init archConfig
  rw [if_neg h68, if_neg h85, if_neg h39]

/-- Witness for the C8 theorem. -/
theorem unknown_arch_rejected_witness :
    ((100 : ℕ) ≠ 68 ∧ (100 : ℕ) ≠ 85 ∧ (100 : ℕ) ≠ 39)
      ∧ HarDNet.init false 100 false false false
        = .error (.unsupportedArch 100) :=
  ⟨⟨by decide, by decide, by decide⟩,
    unknown_arch_rejected 100 false false false false (by decide) (by decide)
      (by decide)⟩

/-- Claim C9, confirmed: building arch 39 with `depth_wise` unset fails
with the unbound-`drop_rate` error when the classification head is built
(the arch-39 branch assigns no `drop_rate`), for every `pretrained` /
hub / local-file environment, while arch 39 with `depth_wise` set
constructs successfully. -/
theorem arch39_requires_depthwise :
    (∀ p hub lf, HarDNet.init false 39 p hub lf = .error .unboundDropRate)
      ∧ (HarDNet.init true 39 false false false).isOk = true :=
  ⟨fun _ _ _ => rfl, rfl⟩

/-- Claim C10, counterexample: the non-depthwise arch-39 network with
pretrained weights requested and the hub path available does not fail
with a key-lookup error: it fails earlier, with the unbound-`drop_rate`
error, while the classification head is built. -/
theorem arch39_pretrained_fails_unbound :
    HarDNet.init false 39 true true true = .error .unboundDropRate :=
  rfl

/-- Claim C10, amended: among the variants that reach the checkpoint
lookup with the hub path available, the codenames absent from the table
are the depthwise 85 variant (`HarDNet85DS`) and the depthwise 39 variant
(`HarDNet39DS` — the table's key is `HarDNet39_DS`, with an underscore);
both fail with a key-lookup error rather than a configuration or
file-not-found error.  The non-depthwise 39 variant never reaches the
lookup: it fails earlier with the unbound-variable error. -/
theorem pretrained_missing_codenames :
    HarDNet.init true 85 true true false
        = .error (.missingKey "HarDNet85DS")
      ∧ HarDNet.init true 39 true true false
        = .error (.missingKey "HarDNet39DS") :=
  ⟨rfl, rfl⟩
